import Mathlib

set_option autoImplicit false

/-! Verification of the tgen tree classifier (tfclassif.py): the data model,
the tree-embedding extractor, the coverage decision layer and the
training-loop checkpoint selection logic, embedded shallowly in Lean. -/

/-- A dependency tree: an ordered sequence of (t-lemma, formeme) node pairs,
which is all the classifier reads from a tree. -/
structure TreeData where
  nodes : List (String × String)
  deriving DecidableEq, Repr

/-- A dialogue act: a list of (act-type, slot, value) triples. The classifier
only inspects it through the external feature/vectorizer pipeline, which is
abstracted as a function below. -/
structure DialogueAct where
  dais : List (String × String × String)
  deriving DecidableEq, Repr

/-- The state of TFTreeClassifier relevant to the coverage decision layer.
The trained network and the fitted DA vectorizer are abstracted as functions:
score gives the raw output of the network on one tree (session.run of
self.outputs), enc gives the numeric one-hot encoding of a dialogue act
(self.da_vect.transform of self.da_feats.get_features). -/
structure TFTreeClassifier where
  enc : DialogueAct → List ℚ
  score : TreeData → List ℚ
  cur_da : Option DialogueAct := none
  cur_da_bin : List Bool := []

/-- Binarization of raw scores at threshold 0, as in classify:
1. if r > 0 else 0. -/
def binarize (rs : List ℚ) : List ℕ :=
  rs.map (fun r => if 0 < r then 1 else 0)

/-- classify: run the network on each tree and binarize the result. -/
def classify (clf : TFTreeClassifier) (trees : List TreeData) : List (List ℕ) :=
  trees.map (fun t => binarize (clf.score t))

/-- The binarized boolean vector of a dialogue act:
da_vect.transform(da_feats.get_features(...))[0] != 0. -/
def daBin (clf : TFTreeClassifier) (da : DialogueAct) : List Bool :=
  (clf.enc da).map (fun x => x != 0)

/-- is_subset_of_da: per tree, the boolean expression
((c != 0) | da_bin == da_bin).all(), which Python parses as
(((c != 0) | da_bin) == da_bin).all() because | binds tighter than ==. -/
def is_subset_of_da (clf : TFTreeClassifier) (da : DialogueAct)
    (trees : List TreeData) : List Bool :=
  let da_bin := daBin clf da
  (classify clf trees).map
    (fun c => (List.zipWith (fun ci di => (((ci != 0) || di) == di)) c da_bin).all
      (fun b => b))

/-- init_run: remember the current DA and cache its binarized vector. -/
def init_run (clf : TFTreeClassifier) (da : DialogueAct) : TFTreeClassifier :=
  { clf with cur_da := some da, cur_da_bin := daBin clf da }

/-- is_subset_of_cur_da: the same expression as is_subset_of_da, against the
cached cur_da_bin. -/
def is_subset_of_cur_da (clf : TFTreeClassifier) (trees : List TreeData) : List Bool :=
  let da_bin := clf.cur_da_bin
  (classify clf trees).map
    (fun c => (List.zipWith (fun ci di => (((ci != 0) || di) == di)) c da_bin).all
      (fun b => b))

/-- corresponds_to_cur_da: ((c != 0) == da_bin).all() against the cached vector. -/
def corresponds_to_cur_da (clf : TFTreeClassifier) (trees : List TreeData) : List Bool :=
  let da_bin := clf.cur_da_bin
  (classify clf trees).map
    (fun c => (List.zipWith (fun ci di => ((ci != 0) == di)) c da_bin).all
      (fun b => b))

/-- dist_to_da: sum(abs(c - da_bin)) per tree, with booleans counting as 0/1. -/
def dist_to_da (clf : TFTreeClassifier) (da : DialogueAct)
    (trees : List TreeData) : List ℕ :=
  let da_bin := daBin clf da
  (classify clf trees).map
    (fun c => (List.zipWith (fun (ci : ℕ) (di : Bool) =>
      ((ci : ℤ) - (if di then 1 else 0)).natAbs) c da_bin).sum)

/-- dist_to_cur_da: the same distance against the cached vector. -/
def dist_to_cur_da (clf : TFTreeClassifier) (trees : List TreeData) : List ℕ :=
  let da_bin := clf.cur_da_bin
  (classify clf trees).map
    (fun c => (List.zipWith (fun (ci : ℕ) (di : Bool) =>
      ((ci : ℤ) - (if di then 1 else 0)).natAbs) c da_bin).sum)

/-! Helper lemmas for the coverage predicates. -/

lemma zipWith_as_map_zip {α β γ : Type} (f : α → β → γ) :
    ∀ (l₁ : List α) (l₂ : List β),
      List.zipWith f l₁ l₂ = (l₁.zip l₂).map (fun p => f p.1 p.2)
  | [], _ => by simp
  | _ :: _, [] => by simp
  | a :: l₁, b :: l₂ => by
    simp [List.zip_cons_cons, zipWith_as_map_zip f l₁ l₂]

lemma bool_eq_of_iff {b c : Bool} (h : b = true ↔ c = true) : b = c := by
  cases b <;> cases c <;> simp_all

lemma all_map_id {α : Type} (f : α → Bool) (l : List α) :
    ((l.map f).all (fun b => b)) = l.all f := by
  induction l with
  | nil => rfl
  | cons x l ih => simp [ih]

lemma bool_eq_decide {b : Bool} {p : Prop} [Decidable p] (h : b = true ↔ p) :
    b = decide p := by
  apply bool_eq_of_iff
  simp [h]

lemma subset_one_iff (c : List ℕ) (d : List Bool) :
    ((List.zipWith (fun ci di => (((ci != 0) || di) == di)) c d).all (fun b => b) = true)
      ↔ ∀ p ∈ c.zip d, p.1 ≠ 0 → p.2 = true := by
  induction c generalizing d with
  | nil => simp
  | cons x c ih =>
    cases d with
    | nil => simp
    | cons y d =>
      simp only [List.zipWith_cons_cons, List.all_cons, Bool.and_eq_true,
        List.zip_cons_cons, List.mem_cons, forall_eq_or_imp, ih]
      constructor
      · rintro ⟨h1, h2⟩
        refine ⟨?_, h2⟩
        intro hx
        cases y
        · simp [bne_iff_ne, hx] at h1
        · rfl
      · rintro ⟨h1, h2⟩
        refine ⟨?_, h2⟩
        by_cases hx : x = 0
        · subst hx; cases y <;> simp
        · simp [h1 hx]

lemma binarize_mem (rs : List ℚ) : ∀ x ∈ binarize rs, x = 0 ∨ x = 1 := by
  intro x hx
  simp only [binarize, List.mem_map] at hx
  obtain ⟨r, -, hr⟩ := hx
  split at hr <;> simp_all

lemma dist_head_iff (x : ℕ) (y : Bool) (hx : x = 0 ∨ x = 1) :
    (((x : ℤ) - (if y then 1 else 0)).natAbs = 0) ↔ (((x != 0) == y) = true) := by
  rcases hx with h | h <;> subst h <;> cases y <;> simp

lemma dist_zero_iff (c : List ℕ) (d : List Bool) (hc : ∀ x ∈ c, x = 0 ∨ x = 1) :
    ((List.zipWith (fun (ci : ℕ) (di : Bool) =>
        ((ci : ℤ) - (if di then 1 else 0)).natAbs) c d).sum = 0
      ↔ (List.zipWith (fun ci di => ((ci != 0) == di)) c d).all (fun b => b) = true) := by
  induction c generalizing d with
  | nil => simp
  | cons x c ih =>
    cases d with
    | nil => simp
    | cons y d =>
      have hx := hc x (by simp)
      have hrest := ih d (fun z hz => hc z (by simp [hz]))
      rw [List.zipWith_cons_cons, List.zipWith_cons_cons, List.sum_cons, List.all_cons,
        Nat.add_eq_zero_iff, Bool.and_eq_true, hrest, dist_head_iff x y hx]

/-! Concrete instances used in counterexamples and witnesses. -/

/-- A one-label classifier whose network always gives a positive score and
whose DA encoder always yields the zero vector. -/
def clfPos : TFTreeClassifier :=
  { enc := fun _ => [0], score := fun _ => [1] }

/-- A one-label classifier whose network always gives a negative score and
whose DA encoder always yields the vector [1]. -/
def clfNeg : TFTreeClassifier :=
  { enc := fun _ => [1], score := fun _ => [-1] }

def daEmpty : DialogueAct := ⟨[]⟩

def treeEmpty : TreeData := ⟨[]⟩

/-! Claims about the coverage decision layer. -/

/-- C1 counterexample: with a prediction whose binarized vector is [1] and a DA
whose binarized vector is [false], both is_subset_of_da and is_subset_of_cur_da
return [false], so the expression ((c != 0) | da_bin == da_bin).all() is not
true for every tree regardless of the prediction. -/
theorem is_subset_of_da_not_always_true :
    is_subset_of_da clfPos daEmpty [treeEmpty] = [false] ∧
      is_subset_of_cur_da (init_run clfPos daEmpty) [treeEmpty] = [false] := by
  constructor <;> rfl

/-- C1 (amended): Python precedence makes the expression parse as
(((c != 0) | da_bin) == da_bin).all(); for each tree both predicates return
whether every coordinate of the binarized prediction that is nonzero is also
set in the DA vector, rather than being constantly true. -/
theorem is_subset_of_da_parenthesization (clf : TFTreeClassifier) (da : DialogueAct)
    (trees : List TreeData) :
    is_subset_of_da clf da trees
        = trees.map (fun t => ((binarize (clf.score t)).zip (daBin clf da)).all
            (fun p => ((p.1 != 0) || p.2) == p.2)) ∧
      is_subset_of_cur_da (init_run clf da) trees
        = trees.map (fun t => ((binarize (clf.score t)).zip (daBin clf da)).all
            (fun p => ((p.1 != 0) || p.2) == p.2)) := by
  have key : ∀ c : List ℕ,
      ((List.zipWith (fun ci di => (((ci != 0) || di) == di)) c (daBin clf da)).all
          (fun b => b))
        = ((c.zip (daBin clf da)).all (fun p => ((p.1 != 0) || p.2) == p.2)) := by
    intro c
    rw [zipWith_as_map_zip, all_map_id]
  constructor <;>
  · simp only [is_subset_of_da, is_subset_of_cur_da, init_run, classify, List.map_map]
    exact congrArg (fun f => List.map f trees) (funext fun t => key (binarize (clf.score t)))

/-- C2: is_subset_of_da implements the subset test: a tree is reported true
exactly when every coordinate set in its binarized prediction is also set in
the binarized DA vector; in particular a tree whose binarized prediction is
all-zero is reported true for every DA. -/
theorem is_subset_of_da_subset_semantics (clf : TFTreeClassifier) (da : DialogueAct)
    (trees : List TreeData) :
    is_subset_of_da clf da trees
        = trees.map (fun t =>
            decide (∀ p ∈ (binarize (clf.score t)).zip (daBin clf da),
              p.1 ≠ 0 → p.2 = true)) ∧
      ∀ t : TreeData, (∀ x ∈ binarize (clf.score t), x = 0) →
        is_subset_of_da clf da [t] = [true] := by
  constructor
  · simp only [is_subset_of_da, classify, List.map_map]
    refine congrArg (fun f => List.map f trees) (funext fun t => ?_)
    exact bool_eq_decide (subset_one_iff _ _)
  · intro t ht
    have h : (List.zipWith (fun ci di => (((ci != 0) || di) == di))
        (binarize (clf.score t)) (daBin clf da)).all (fun b => b) = true := by
      rw [subset_one_iff]
      intro p hp hne
      exact absurd (ht p.1 (List.of_mem_zip hp).1) hne
    simp only [is_subset_of_da, classify, List.map_cons, List.map_nil, h]

/-- C2 witness: a classifier with an all-negative score vector binarizes to the
zero vector, and is_subset_of_da reports true for it. -/
theorem is_subset_of_da_zero_vector_witness :
    (∀ x ∈ binarize (clfNeg.score treeEmpty), x = 0) ∧
      is_subset_of_da clfNeg daEmpty [treeEmpty] = [true] :=
  ⟨by decide, (is_subset_of_da_subset_semantics clfNeg daEmpty []).2 treeEmpty (by decide)⟩

/-- C6: dist_to_da gives, per tree, the sum of absolute elementwise differences
between the binarized prediction and the binarized DA vector, and this distance
is zero exactly where corresponds_to_cur_da (after init_run on the same DA)
reports true. -/
theorem dist_to_da_zero_iff_corresponds (clf : TFTreeClassifier) (da : DialogueAct)
    (trees : List TreeData) :
    dist_to_da clf da trees
        = trees.map (fun t => (((binarize (clf.score t)).zip (daBin clf da)).map
            (fun p => ((p.1 : ℤ) - (if p.2 then 1 else 0)).natAbs)).sum) ∧
      (dist_to_da clf da trees).map (fun dv => dv == 0)
        = corresponds_to_cur_da (init_run clf da) trees := by
  constructor
  · simp only [dist_to_da, classify, List.map_map]
    refine congrArg (fun f => List.map f trees) (funext fun t => ?_)
    simp only [Function.comp_apply]
    rw [zipWith_as_map_zip]
  · simp only [dist_to_da, corresponds_to_cur_da, init_run, classify, List.map_map]
    refine congrArg (fun f => List.map f trees) (funext fun t => ?_)
    apply bool_eq_of_iff
    simp only [Function.comp_apply, beq_iff_eq]
    exact dist_zero_iff _ _ (binarize_mem _)

/-- C10: after init_run(da), is_subset_of_cur_da and dist_to_cur_da return the
same lists as is_subset_of_da(da, trees) and dist_to_da(da, trees): the cached
binarized vector is equivalent to re-encoding the DA on every call. -/
theorem init_run_cache_equiv (clf : TFTreeClassifier) (da : DialogueAct)
    (trees : List TreeData) :
    is_subset_of_cur_da (init_run clf da) trees = is_subset_of_da clf da trees ∧
      dist_to_cur_da (init_run clf da) trees = dist_to_da clf da trees :=
  ⟨rfl, rfl⟩

/-! Training loop checkpoint selection (train and _save_checkpoint).

The TensorFlow session, saver and the actual parameter tensors are opaque;
what the claims are about is the decision logic: top_cost starts as float nan,
and at each validation point the model is checkpointed exactly when
math.isnan(top_cost) or cur_cost < top_cost, in which case top_cost is updated
and _save_checkpoint writes to a single temporary path that is allocated on
the first save and reused afterwards. The float nan initial value is modelled
as the none case of an Option; all later costs are rationals. The saved
parameter snapshot is modelled by the index of the validation point, and the
filesystem by an association list from paths to snapshots. -/

structure CkptState where
  top_cost : Option ℚ
  checkpoint_path : Option ℕ
  next_tmp : ℕ
  disk : List (ℕ × ℕ)
  deriving DecidableEq, Repr

def initCkpt : CkptState :=
  { top_cost := none, checkpoint_path := none, next_tmp := 0, disk := [] }

/-- Overwrite the value stored at a path, or create the file. -/
def writeDisk (d : List (ℕ × ℕ)) (p v : ℕ) : List (ℕ × ℕ) :=
  if (d.lookup p).isSome then d.map (fun e => if e.1 = p then (p, v) else e)
  else d ++ [(p, v)]

/-- _save_checkpoint: allocate a temporary path on the first call, then always
save to that same path, overwriting the previous checkpoint. -/
def save_checkpoint (st : CkptState) (payload : ℕ) : CkptState :=
  match st.checkpoint_path with
  | none =>
    { st with checkpoint_path := some st.next_tmp,
              next_tmp := st.next_tmp + 1,
              disk := writeDisk st.disk st.next_tmp payload }
  | some path => { st with disk := writeDisk st.disk path payload }

/-- One validation point of train: if math.isnan(top_cost) or
cur_cost < top_cost, update top_cost and save a checkpoint. Returns the new
state and whether a checkpoint was persisted. -/
def validStep (st : CkptState) (cur_cost : ℚ) (payload : ℕ) : CkptState × Bool :=
  match st.top_cost with
  | none => (save_checkpoint { st with top_cost := some cur_cost } payload, true)
  | some t =>
    if cur_cost < t then
      (save_checkpoint { st with top_cost := some cur_cost } payload, true)
    else (st, false)

/-- The sequence of validation points of one training run, given the combined
costs they produce, starting from a given state; payloads are the indices of
the validation points. -/
def runValid : CkptState → ℕ → List ℚ → CkptState × List Bool
  | st, _, [] => (st, [])
  | st, idx, c :: cs =>
    let p := validStep st c idx
    let q := runValid p.1 (idx + 1) cs
    (q.1, p.2 :: q.2)

/-- Reference formulation of best-so-far selection: a checkpoint is persisted
exactly when the current cost is strictly below every cost seen before it
(vacuously at the first validation point). -/
def bestSoFarFlags : List ℚ → List ℚ → List Bool
  | _, [] => []
  | prev, c :: cs => (prev.all (fun p => decide (c < p))) :: bestSoFarFlags (prev ++ [c]) cs


lemma save_checkpoint_top_cost (st : CkptState) (p : ℕ) :
    (save_checkpoint st p).top_cost = st.top_cost := by
  rw [save_checkpoint.eq_def]
  cases h : st.checkpoint_path <;> rfl

lemma validStep_save (st : CkptState) (c : ℚ) (idx : ℕ)
    (h : st.top_cost = none ∨ ∃ t, st.top_cost = some t ∧ c < t) :
    validStep st c idx = (save_checkpoint { st with top_cost := some c } idx, true) := by
  rw [validStep.eq_def]
  rcases h with h | ⟨t, h, hlt⟩ <;> rw [h]
  show (if c < t then (save_checkpoint { st with top_cost := some c } idx, true)
      else (st, false))
    = (save_checkpoint { st with top_cost := some c } idx, true)
  rw [if_pos hlt]

lemma validStep_skip (st : CkptState) (t : ℚ) (c : ℚ) (idx : ℕ)
    (h : st.top_cost = some t) (hlt : ¬ c < t) :
    validStep st c idx = (st, false) := by
  rw [validStep.eq_def, h]
  show (if c < t then (save_checkpoint { st with top_cost := some c } idx, true)
      else (st, false))
    = (st, false)
  rw [if_neg hlt]

/-- Invariant carried along the loop: the stored top cost is the minimum of
the costs seen so far, and is absent exactly when nothing has been seen. -/
def TopInv (o : Option ℚ) (prev : List ℚ) : Prop :=
  match o with
  | none => prev = []
  | some t => t ∈ prev ∧ ∀ p ∈ prev, t ≤ p

lemma runValid_flags (cs : List ℚ) :
    ∀ (st : CkptState) (idx : ℕ) (prev : List ℚ), TopInv st.top_cost prev →
      (runValid st idx cs).2 = bestSoFarFlags prev cs := by
  induction cs with
  | nil => intro st idx prev _; rfl
  | cons c cs ih =>
    intro st idx prev hinv
    rcases hst : st.top_cost with - | t
    · rw [hst] at hinv
      have hprev : prev = [] := hinv
      subst hprev
      have hstep := validStep_save st c idx (Or.inl hst)
      have htail := ih (save_checkpoint { st with top_cost := some c } idx) (idx + 1) [c]
        (by
          rw [save_checkpoint_top_cost]
          exact ⟨List.mem_singleton_self c, fun p hp => le_of_eq (List.eq_of_mem_singleton hp).symm⟩)
      show (validStep st c idx).2 :: (runValid (validStep st c idx).1 (idx + 1) cs).2
          = bestSoFarFlags [] (c :: cs)
      rw [hstep]
      show true :: (runValid (save_checkpoint { st with top_cost := some c } idx) (idx + 1) cs).2
          = bestSoFarFlags [] (c :: cs)
      rw [htail]
      rfl
    · rw [hst] at hinv
      obtain ⟨hmem, hmin⟩ := hinv
      by_cases hlt : c < t
      · have hstep := validStep_save st c idx (Or.inr ⟨t, hst, hlt⟩)
        have hall : prev.all (fun p => decide (c < p)) = true := by
          rw [List.all_eq_true]
          intro p hp
          exact decide_eq_true (lt_of_lt_of_le hlt (hmin p hp))
        have htail := ih (save_checkpoint { st with top_cost := some c } idx) (idx + 1)
          (prev ++ [c])
          (by
            rw [save_checkpoint_top_cost]
            show c ∈ prev ++ [c] ∧ ∀ p ∈ prev ++ [c], c ≤ p
            refine ⟨List.mem_append.mpr (Or.inr (List.mem_singleton_self c)), ?_⟩
            intro p hp
            rcases List.mem_append.mp hp with h | h
            · exact le_of_lt (lt_of_lt_of_le hlt (hmin p h))
            · exact le_of_eq (List.eq_of_mem_singleton h).symm)
        show (validStep st c idx).2 :: (runValid (validStep st c idx).1 (idx + 1) cs).2
            = bestSoFarFlags prev (c :: cs)
        rw [hstep]
        show true :: (runValid (save_checkpoint { st with top_cost := some c } idx) (idx + 1) cs).2
            = bestSoFarFlags prev (c :: cs)
        rw [htail]
        show true :: bestSoFarFlags (prev ++ [c]) cs
            = (prev.all fun p => decide (c < p)) :: bestSoFarFlags (prev ++ [c]) cs
        rw [hall]
      · have hstep := validStep_skip st t c idx hst hlt
        have hall : prev.all (fun p => decide (c < p)) = false := by
          cases h : prev.all (fun p => decide (c < p)) with
          | false => rfl
          | true => exact absurd (of_decide_eq_true (List.all_eq_true.mp h t hmem)) hlt
        have htail := ih st (idx + 1) (prev ++ [c])
          (by
            rw [hst]
            show t ∈ prev ++ [c] ∧ ∀ p ∈ prev ++ [c], t ≤ p
            refine ⟨List.mem_append.mpr (Or.inl hmem), ?_⟩
            intro p hp
            rcases List.mem_append.mp hp with h | h
            · exact hmin p h
            · exact (List.eq_of_mem_singleton h) ▸ le_of_not_lt hlt)
        show (validStep st c idx).2 :: (runValid (validStep st c idx).1 (idx + 1) cs).2
            = bestSoFarFlags prev (c :: cs)
        rw [hstep]
        show false :: (runValid st (idx + 1) cs).2 = bestSoFarFlags prev (c :: cs)
        rw [htail]
        show false :: bestSoFarFlags (prev ++ [c]) cs
            = (prev.all fun p => decide (c < p)) :: bestSoFarFlags (prev ++ [c]) cs
        rw [hall]

/-- C3: a checkpoint is persisted at a validation point exactly when no
checkpoint exists yet or the combined cost is strictly below every combined
cost seen before (i.e. strictly below the best so far); on the cost sequence
[5, 3, 3, 4, 2] checkpoints are saved at 5, the first 3 and 2 only, and every
save goes to the single temporary path allocated at the first save,
overwriting the previous snapshot there. -/
theorem train_checkpoint_selection :
    (∀ costs : List ℚ, (runValid initCkpt 0 costs).2 = bestSoFarFlags [] costs) ∧
      (runValid initCkpt 0 [5, 3, 3, 4, 2]).2 = [true, true, false, false, true] ∧
      (runValid initCkpt 0 [5, 3, 3, 4, 2]).1.checkpoint_path = some 0 ∧
      (runValid initCkpt 0 [5, 3, 3, 4, 2]).1.next_tmp = 1 ∧
      (runValid initCkpt 0 [5, 3, 3, 4, 2]).1.disk = [(0, 4)] :=
  ⟨fun costs => runValid_flags costs initCkpt 0 [] rfl,
    by decide, by decide, by decide, by decide⟩

/-! The validation step of train (the per-pass guard and combined cost).

In the source, valid_das is either None or a list of DAs; the Python 2
comparison valid_das > 0 is False for None and True for any list (values of
different types compare by type name, and the name of the list type sorts
above the name of the int type), so the last conjunct of the guard tests that
validation data was supplied at all. -/

/-- The guard under which the validation/checkpointing block of train runs at
the end of pass iter_no:
iter_no > min_passes and iter_no % validation_freq == 0 and valid_das > 0. -/
def validationGuard (min_passes validation_freq iter_no : ℕ)
    (valid_das : Option (List DialogueAct)) : Bool :=
  (decide (min_passes < iter_no)) && (iter_no % validation_freq == 0) && valid_das.isSome

/-- The combined cost of a validation point: valid_diff sums dist_to_da over
the zipped validation DAs and their reference-tree lists, and the combined
cost is 1000 * valid_diff + 100 * pass_diff + pass_cost. -/
def combinedCost (clf : TFTreeClassifier) (valid_das : List DialogueAct)
    (valid_trees : List (List TreeData)) (pass_cost pass_diff : ℚ) : ℚ :=
  let valid_diff : ℚ := ((valid_das.zip valid_trees).map
    (fun p => ((dist_to_da clf p.1 p.2).sum : ℚ))).sum
  1000 * valid_diff + 100 * pass_diff + pass_cost

/-- The validation/checkpointing step at the end of pass iter_no: the combined
cost when the guard holds, none when the step is skipped. -/
def trainValidation (clf : TFTreeClassifier) (min_passes validation_freq iter_no : ℕ)
    (valid_das : Option (List DialogueAct)) (valid_trees : List (List TreeData))
    (pass_cost pass_diff : ℚ) : Option ℚ :=
  if validationGuard min_passes validation_freq iter_no valid_das then
    some (combinedCost clf (valid_das.getD []) valid_trees pass_cost pass_diff)
  else none

lemma validationGuard_iff (mp vf i : ℕ) (vd : Option (List DialogueAct)) :
    validationGuard mp vf i vd = true ↔ (i % vf = 0 ∧ mp < i ∧ vd.isSome = true) := by
  simp only [validationGuard, Bool.and_eq_true, decide_eq_true_eq, beq_iff_eq]
  tauto

/-- C4 counterexample: with min_passes = 10 and validation_freq = 10, at the
end of pass 10 at least min_passes passes have elapsed, 10 is a multiple of
validation_freq and validation data is supplied, yet the validation step is
skipped, because the source requires iter_no > min_passes strictly. -/
theorem validation_skipped_at_min_passes :
    ((10 : ℕ) % 10 = 0 ∧ (10 : ℕ) ≥ 10 ∧ (some [daEmpty]).isSome = true) ∧
      trainValidation clfPos 10 10 10 (some [daEmpty]) [[treeEmpty]] 0 0 = none :=
  ⟨⟨rfl, le_refl 10, rfl⟩, rfl⟩

/-- C4 (amended): the validation step runs at the end of pass i exactly when
i is a multiple of validation_freq, strictly more than min_passes passes have
elapsed, and validation data was supplied; when it runs, the combined cost is
1000 * validation_error + 100 * pass_error + pass_loss; with no validation
data it is silently skipped. -/
theorem train_validation_guard (clf : TFTreeClassifier)
    (min_passes validation_freq iter_no : ℕ) (valid_das : Option (List DialogueAct))
    (valid_trees : List (List TreeData)) (pass_cost pass_diff : ℚ) :
    ((trainValidation clf min_passes validation_freq iter_no valid_das valid_trees
          pass_cost pass_diff).isSome = true
        ↔ iter_no % validation_freq = 0 ∧ min_passes < iter_no ∧ valid_das.isSome = true) ∧
      (∀ ds : List DialogueAct, valid_das = some ds → min_passes < iter_no →
        iter_no % validation_freq = 0 →
        trainValidation clf min_passes validation_freq iter_no valid_das valid_trees
            pass_cost pass_diff
          = some (1000 * ((ds.zip valid_trees).map
              (fun p => ((dist_to_da clf p.1 p.2).sum : ℚ))).sum
              + 100 * pass_diff + pass_cost)) ∧
      (valid_das = none →
        trainValidation clf min_passes validation_freq iter_no valid_das valid_trees
            pass_cost pass_diff = none) := by
  refine ⟨?_, ?_, ?_⟩
  · unfold trainValidation
    by_cases hg : validationGuard min_passes validation_freq iter_no valid_das = true
    · rw [if_pos hg]
      simp only [Option.isSome_some, true_iff]
      exact (validationGuard_iff _ _ _ _).mp hg
    · rw [if_neg hg]
      simp only [Option.isSome_none, Bool.false_eq_true, false_iff]
      intro h
      exact hg ((validationGuard_iff _ _ _ _).mpr h)
  · intro ds hds h1 h2
    have hg : validationGuard min_passes validation_freq iter_no valid_das = true :=
      (validationGuard_iff _ _ _ _).mpr ⟨h2, h1, by rw [hds]; rfl⟩
    unfold trainValidation
    rw [if_pos hg, hds]
    rfl
  · intro h
    subst h
    have hg : validationGuard min_passes validation_freq iter_no none = false := by
      simp [validationGuard]
    simp [trainValidation, hg]

/-- C4 witness: with min_passes = 0, validation_freq = 1, at the end of pass 1
with one validation DA and one reference tree, the step runs and produces the
combined cost 1000 * 1 + 100 * 0 + 0 = 1000. -/
theorem train_validation_guard_witness :
    trainValidation clfPos 0 1 1 (some [daEmpty]) [[treeEmpty]] 0 0 = some 1000 := by
  have h := (train_validation_guard clfPos 0 1 1 (some [daEmpty]) [[treeEmpty]] 0 0).2.1
    [daEmpty] rfl (by decide) (by decide)
  have hd : dist_to_da clfPos daEmpty [treeEmpty] = [1] := rfl
  rw [h]
  simp [hd]

/-! Tree embedding extractor (TreeEmbeddingClassifExtract). -/

/-- Reserved padding id. -/
def VOID : ℕ := 0

/-- Reserved unknown-t-lemma id. -/
def UNK_T_LEMMA : ℕ := 1

/-- Reserved unknown-formeme id. -/
def UNK_FORMEME : ℕ := 2

/-- Modelled from the spec: MIN_VALID is defined in the external
EmbeddingExtract base class, which is not part of this repository slice; the
spec says ids are assigned in first-seen order starting from a fixed minimum
value, which we take to be the first id above the reserved void (0) and
unknown (1, 2) ids. -/
def MIN_VALID : ℕ := 3

/-- The dictionaries of the extractor, as association lists in insertion
order, plus the configured maximum tree length. -/
structure TreeEmbeddingClassifExtract where
  dict_t_lemma : List (String × ℕ)
  dict_formeme : List (String × ℕ)
  max_tree_len : ℕ
  deriving DecidableEq, Repr

/-- A fresh extractor: dictionaries pre-seeded with the unknown entries;
max_tree_len comes from the configuration (default 25). -/
def mkExtract (max_tree_len : ℕ) : TreeEmbeddingClassifExtract :=
  { dict_t_lemma := [("UNK_T_LEMMA", UNK_T_LEMMA)],
    dict_formeme := [("UNK_FORMEME", UNK_FORMEME)],
    max_tree_len := max_tree_len }

/-- One dictionary insertion of init_dict: if the key is absent, append it
with the current id and advance the counter. -/
def addEntry (d : List (String × ℕ)) (k : String) (ord : ℕ) :
    List (String × ℕ) × ℕ :=
  if (d.lookup k).isSome then (d, ord) else (d ++ [(k, ord)], ord + 1)

/-- Process one (t_lemma, formeme) node of init_dict: the t-lemma is looked
up and possibly registered first, then the formeme. -/
def initDictNode (st : TreeEmbeddingClassifExtract × ℕ) (node : String × String) :
    TreeEmbeddingClassifExtract × ℕ :=
  let p := addEntry st.1.dict_t_lemma node.1 st.2
  let q := addEntry st.1.dict_formeme node.2 p.2
  ({ st.1 with dict_t_lemma := p.1, dict_formeme := q.1 }, q.2)

/-- init_dict: iterate over the training trees and their nodes, assigning
fresh ids to unseen t-lemmas and formemes; with dict_ord = None the counter
is initialized to MIN_VALID. Returns the updated extractor together with the
highest assigned id + 1 (the current lowest available id). -/
def init_dict (e : TreeEmbeddingClassifExtract) (train_trees : List TreeData)
    (dict_ord : Option ℕ) : TreeEmbeddingClassifExtract × ℕ :=
  train_trees.foldl (fun st tree => tree.nodes.foldl initDictNode st)
    (e, dict_ord.getD MIN_VALID)

/-- The interleaved (formeme-id, t-lemma-id) embedding of the first
max_tree_len nodes, before padding; unregistered lemmas and formemes fall
back to the unknown ids. -/
def embsOf (e : TreeEmbeddingClassifExtract) (tree : TreeData) : List ℕ :=
  (tree.nodes.take e.max_tree_len).bind
    (fun n => [(e.dict_formeme.lookup n.2).getD UNK_FORMEME,
               (e.dict_t_lemma.lookup n.1).getD UNK_T_LEMMA])

/-- get_embeddings: the interleaved ids of up to max_tree_len leading nodes,
left-padded with VOID when shorter than max_tree_len * 2. -/
def get_embeddings (e : TreeEmbeddingClassifExtract) (tree : TreeData) : List ℕ :=
  let embs := embsOf e tree
  if embs.length < e.max_tree_len * 2 then
    List.replicate (e.max_tree_len * 2 - embs.length) VOID ++ embs
  else embs

/-- get_embeddings_shape: the fixed output shape. -/
def get_embeddings_shape (e : TreeEmbeddingClassifExtract) : List ℕ :=
  [e.max_tree_len * 2]

lemma interleave_length (e : TreeEmbeddingClassifExtract) :
    ∀ ns : List (String × String),
      (ns.bind (fun n => [(e.dict_formeme.lookup n.2).getD UNK_FORMEME,
        (e.dict_t_lemma.lookup n.1).getD UNK_T_LEMMA])).length = 2 * ns.length
  | [] => rfl
  | n :: ns => by
    simp only [List.cons_bind, List.length_append, List.length_cons, List.length_nil,
      interleave_length e ns]
    omega

lemma embsOf_length (e : TreeEmbeddingClassifExtract) (t : TreeData) :
    (embsOf e t).length = 2 * min e.max_tree_len t.nodes.length := by
  rw [embsOf, interleave_length, List.length_take]

/-- C5: get_embeddings always returns exactly 2 * max_tree_len ids; the output
is the interleaved (formeme-id, t-lemma-id) sequence of the first max_tree_len
nodes left-padded with the void id, and for the empty tree it is void
throughout. -/
theorem get_embeddings_length_padding (e : TreeEmbeddingClassifExtract) (t : TreeData) :
    (get_embeddings e t).length = 2 * e.max_tree_len ∧
      get_embeddings e t
        = List.replicate (2 * e.max_tree_len - (embsOf e t).length) VOID ++ embsOf e t ∧
      (t.nodes = [] → get_embeddings e t = List.replicate (2 * e.max_tree_len) VOID) := by
  have hle : (embsOf e t).length ≤ 2 * e.max_tree_len := by
    rw [embsOf_length]
    have := Nat.min_le_left e.max_tree_len t.nodes.length
    omega
  have hrw : get_embeddings e t
      = if (embsOf e t).length < e.max_tree_len * 2 then
          List.replicate (e.max_tree_len * 2 - (embsOf e t).length) VOID ++ embsOf e t
        else embsOf e t := rfl
  have hstruct : get_embeddings e t
      = List.replicate (2 * e.max_tree_len - (embsOf e t).length) VOID ++ embsOf e t := by
    rw [hrw]
    by_cases h : (embsOf e t).length < e.max_tree_len * 2
    · rw [if_pos h, Nat.mul_comm e.max_tree_len 2]
    · rw [if_neg h]
      have heq : (embsOf e t).length = 2 * e.max_tree_len := by omega
      rw [heq, Nat.sub_self]
      rfl
  refine ⟨?_, hstruct, ?_⟩
  · rw [hstruct]
    simp only [List.length_append, List.length_replicate]
    omega
  · intro h
    have hnil : embsOf e t = [] := by
      simp [embsOf, h]
    rw [hstruct, hnil]
    simp

/-- C5 witness: evaluating the theorem on a fresh extractor with
max_tree_len = 3 and the empty tree. -/
theorem get_embeddings_length_padding_witness :
    get_embeddings (mkExtract 3) treeEmpty = List.replicate 6 VOID :=
  (get_embeddings_length_padding (mkExtract 3) treeEmpty).2.2 rfl

lemma take_append_left {α : Type} (l₁ l₂ : List α) (n : ℕ) (h : n ≤ l₁.length) :
    (l₁ ++ l₂).take n = l₁.take n := by
  rw [List.take_append_eq_append_take, Nat.sub_eq_zero_of_le h]
  simp

/-- C9: for a tree with at least max_tree_len nodes, get_embeddings only
depends on the first max_tree_len nodes: appending further nodes never
changes the output. -/
theorem get_embeddings_truncation (e : TreeEmbeddingClassifExtract) (t : TreeData)
    (extra : List (String × String)) (h : e.max_tree_len ≤ t.nodes.length) :
    get_embeddings e (TreeData.mk (t.nodes ++ extra)) = get_embeddings e t := by
  have hembs : embsOf e (TreeData.mk (t.nodes ++ extra)) = embsOf e t := by
    unfold embsOf
    rw [take_append_left t.nodes extra e.max_tree_len h]
  have h1 : get_embeddings e (TreeData.mk (t.nodes ++ extra))
      = if (embsOf e (TreeData.mk (t.nodes ++ extra))).length < e.max_tree_len * 2 then
          List.replicate
            (e.max_tree_len * 2 - (embsOf e (TreeData.mk (t.nodes ++ extra))).length)
            VOID ++ embsOf e (TreeData.mk (t.nodes ++ extra))
        else embsOf e (TreeData.mk (t.nodes ++ extra)) := rfl
  rw [h1, hembs]
  rfl

/-- C9 witness: with max_tree_len = 1, appending a second node to a one-node
tree does not change the embedding. -/
theorem get_embeddings_truncation_witness :
    (1 ≤ ([("a", "r")] : List (String × String)).length) ∧
      get_embeddings (mkExtract 1) (TreeData.mk [("a", "r"), ("b", "s")])
        = get_embeddings (mkExtract 1) (TreeData.mk [("a", "r")]) :=
  ⟨by decide,
    get_embeddings_truncation (mkExtract 1) (TreeData.mk [("a", "r")]) [("b", "s")]
      (by decide)⟩

/-! Properties of init_dict. -/

/-- All ids stored in both dictionaries of an extractor. -/
def allIds (e : TreeEmbeddingClassifExtract) : List ℕ :=
  e.dict_t_lemma.map Prod.snd ++ e.dict_formeme.map Prod.snd

/-- Summary of what a run of init_dict insertions does to the state: the
counter only grows, max_tree_len is untouched, both dictionaries are extended
by appending new entries whose ids lie in the consumed counter range, and
distinctness of ids below the counter is preserved. -/
def DictStep (s t : TreeEmbeddingClassifExtract × ℕ) : Prop :=
  s.2 ≤ t.2 ∧
    t.1.max_tree_len = s.1.max_tree_len ∧
    (∃ nl nf : List (String × ℕ),
      t.1.dict_t_lemma = s.1.dict_t_lemma ++ nl ∧
        t.1.dict_formeme = s.1.dict_formeme ++ nf ∧
        ∀ v ∈ nl.map Prod.snd ++ nf.map Prod.snd, s.2 ≤ v ∧ v < t.2) ∧
    (((allIds s.1).Nodup ∧ ∀ v ∈ allIds s.1, v < s.2) →
      ((allIds t.1).Nodup ∧ ∀ v ∈ allIds t.1, v < t.2))

lemma DictStep_refl (s : TreeEmbeddingClassifExtract × ℕ) : DictStep s s :=
  ⟨le_refl _, rfl, ⟨[], [], by simp, by simp, by simp⟩, id⟩

lemma DictStep_trans {s t u : TreeEmbeddingClassifExtract × ℕ}
    (h1 : DictStep s t) (h2 : DictStep t u) : DictStep s u := by
  obtain ⟨hle1, hml1, ⟨nl1, nf1, hl1, hf1, hr1⟩, hinv1⟩ := h1
  obtain ⟨hle2, hml2, ⟨nl2, nf2, hl2, hf2, hr2⟩, hinv2⟩ := h2
  refine ⟨le_trans hle1 hle2, hml2.trans hml1,
    ⟨nl1 ++ nl2, nf1 ++ nf2, ?_, ?_, ?_⟩, fun h => hinv2 (hinv1 h)⟩
  · rw [hl2, hl1, List.append_assoc]
  · rw [hf2, hf1, List.append_assoc]
  · intro v hv
    simp only [List.map_append, List.mem_append] at hv
    rcases hv with (h | h) | (h | h)
    · have hx := hr1 v (List.mem_append.mpr (Or.inl h))
      exact ⟨hx.1, lt_of_lt_of_le hx.2 hle2⟩
    · have hx := hr2 v (List.mem_append.mpr (Or.inl h))
      exact ⟨le_trans hle1 hx.1, hx.2⟩
    · have hx := hr1 v (List.mem_append.mpr (Or.inr h))
      exact ⟨hx.1, lt_of_lt_of_le hx.2 hle2⟩
    · have hx := hr2 v (List.mem_append.mpr (Or.inr h))
      exact ⟨le_trans hle1 hx.1, hx.2⟩

lemma nodup_append_singleton {l : List ℕ} {x : ℕ} (hl : l.Nodup) (hx : x ∉ l) :
    (l ++ [x]).Nodup :=
  (List.perm_append_singleton x l).nodup_iff.mpr (List.Nodup.cons hx hl)

lemma DictStep_add_t_lemma (e : TreeEmbeddingClassifExtract) (k : String) (ord : ℕ) :
    DictStep (e, ord)
      ({ e with dict_t_lemma := (addEntry e.dict_t_lemma k ord).1 },
        (addEntry e.dict_t_lemma k ord).2) := by
  unfold addEntry
  by_cases h : (e.dict_t_lemma.lookup k).isSome
  · rw [if_pos h]
    exact ⟨le_refl _, rfl, ⟨[], [], by simp, by simp, by simp⟩, id⟩
  · rw [if_neg h]
    refine ⟨Nat.le_succ _, rfl, ⟨[(k, ord)], [], rfl, by simp, ?_⟩, ?_⟩
    · intro v hv
      simp only [List.map_cons, List.map_nil, List.append_nil, List.mem_singleton] at hv
      subst hv
      omega
    · rintro ⟨hnd, hlt⟩
      have hids : allIds { e with dict_t_lemma := e.dict_t_lemma ++ [(k, ord)] }
          = e.dict_t_lemma.map Prod.snd ++ ord :: e.dict_formeme.map Prod.snd := by
        simp [allIds]
      constructor
      · rw [hids]
        refine (List.perm_middle.nodup_iff).mpr ?_
        refine List.Nodup.cons ?_ hnd
        intro hmem
        exact absurd (hlt ord hmem) (lt_irrefl ord)
      · intro v hv
        rw [hids] at hv
        rcases List.mem_append.mp hv with h1 | h1
        · have : v ∈ allIds e := List.mem_append.mpr (Or.inl h1)
          exact lt_of_lt_of_le (hlt v this) (Nat.le_succ ord)
        · rcases List.mem_cons.mp h1 with h2 | h2
          · omega
          · have : v ∈ allIds e := List.mem_append.mpr (Or.inr h2)
            exact lt_of_lt_of_le (hlt v this) (Nat.le_succ ord)

lemma DictStep_add_formeme (e : TreeEmbeddingClassifExtract) (k : String) (ord : ℕ) :
    DictStep (e, ord)
      ({ e with dict_formeme := (addEntry e.dict_formeme k ord).1 },
        (addEntry e.dict_formeme k ord).2) := by
  unfold addEntry
  by_cases h : (e.dict_formeme.lookup k).isSome
  · rw [if_pos h]
    exact ⟨le_refl _, rfl, ⟨[], [], by simp, by simp, by simp⟩, id⟩
  · rw [if_neg h]
    refine ⟨Nat.le_succ _, rfl, ⟨[], [(k, ord)], by simp, rfl, ?_⟩, ?_⟩
    · intro v hv
      simp only [List.map_cons, List.map_nil, List.nil_append, List.mem_singleton] at hv
      subst hv
      omega
    · rintro ⟨hnd, hlt⟩
      have hids : allIds { e with dict_formeme := e.dict_formeme ++ [(k, ord)] }
          = (e.dict_t_lemma.map Prod.snd ++ e.dict_formeme.map Prod.snd) ++ [ord] := by
        simp [allIds]
      constructor
      · rw [hids]
        refine nodup_append_singleton hnd ?_
        intro hmem
        exact absurd (hlt ord hmem) (lt_irrefl ord)
      · intro v hv
        rw [hids] at hv
        rcases List.mem_append.mp hv with h1 | h1
        · exact lt_of_lt_of_le (hlt v h1) (Nat.le_succ ord)
        · rcases List.mem_singleton.mp h1 with h2
          omega

lemma DictStep_node (st : TreeEmbeddingClassifExtract × ℕ) (n : String × String) :
    DictStep st (initDictNode st n) := by
  have h1 := DictStep_add_t_lemma st.1 n.1 st.2
  have h2 := DictStep_add_formeme
    { st.1 with dict_t_lemma := (addEntry st.1.dict_t_lemma n.1 st.2).1 } n.2
    (addEntry st.1.dict_t_lemma n.1 st.2).2
  exact DictStep_trans (s := (st.1, st.2)) h1 h2

lemma DictStep_fold_nodes (ns : List (String × String)) :
    ∀ st : TreeEmbeddingClassifExtract × ℕ, DictStep st (ns.foldl initDictNode st) := by
  induction ns with
  | nil => exact fun st => DictStep_refl st
  | cons n ns ih =>
    intro st
    exact DictStep_trans (DictStep_node st n) (ih (initDictNode st n))

lemma DictStep_fold_trees (trees : List TreeData) :
    ∀ st : TreeEmbeddingClassifExtract × ℕ,
      DictStep st (trees.foldl (fun st tree => tree.nodes.foldl initDictNode st) st) := by
  induction trees with
  | nil => exact fun st => DictStep_refl st
  | cons t trees ih =>
    intro st
    exact DictStep_trans (DictStep_fold_nodes t.nodes st)
      (ih (t.nodes.foldl initDictNode st))

lemma lookup_append_of_some {β : Type} (d nw : List (String × β)) (k : String) (v : β)
    (h : d.lookup k = some v) : (d ++ nw).lookup k = some v := by
  induction d with
  | nil => simp [List.lookup] at h
  | cons p d ih =>
    obtain ⟨a, b⟩ := p
    rw [List.cons_append]
    simp only [List.lookup] at h ⊢
    cases hk : (k == a) with
    | true => rw [hk] at h; exact h
    | false => rw [hk] at h; exact ih h

/-- C7 counterexample: two successive calls to init_dict with the default
dict_ord both restart the id counter at MIN_VALID, so the id 3 handed to the
t-lemma a by the first call is handed again to the new t-lemma b by the
second call: an id is reused across calls, although existing entries keep
their ids. -/
theorem init_dict_id_reuse :
    ((init_dict (init_dict (mkExtract 25) [TreeData.mk [("a", "r")]] none).1
          [TreeData.mk [("b", "s")]] none).1.dict_t_lemma.lookup "a" = some 3 ∧
        (init_dict (init_dict (mkExtract 25) [TreeData.mk [("a", "r")]] none).1
          [TreeData.mk [("b", "s")]] none).1.dict_t_lemma.lookup "b" = some 3) ∧
      ("a" : String) ≠ "b" :=
  ⟨⟨by decide, by decide⟩, by decide⟩

/-- C7 (amended): within one call of init_dict (and hence across calls that
resume from the returned counter), already-present lemmas and formemes keep
their ids and are never removed, the dictionaries only grow by appending,
every newly assigned id lies in the consumed counter range, the returned
value is the next available id, and when the starting counter exceeds every
stored id (ids being distinct), all ids stay distinct: no id is reused. With
the default dict_ord the counter restarts at MIN_VALID, so ids can be reused
across separate calls (see the counterexample). -/
theorem init_dict_monotone_fresh (e : TreeEmbeddingClassifExtract)
    (trees : List TreeData) (dict_ord : Option ℕ) :
    dict_ord.getD MIN_VALID ≤ (init_dict e trees dict_ord).2 ∧
      (∀ k v, e.dict_t_lemma.lookup k = some v →
        (init_dict e trees dict_ord).1.dict_t_lemma.lookup k = some v) ∧
      (∀ k v, e.dict_formeme.lookup k = some v →
        (init_dict e trees dict_ord).1.dict_formeme.lookup k = some v) ∧
      (∃ nl nf : List (String × ℕ),
        (init_dict e trees dict_ord).1.dict_t_lemma = e.dict_t_lemma ++ nl ∧
          (init_dict e trees dict_ord).1.dict_formeme = e.dict_formeme ++ nf ∧
          ∀ v ∈ nl.map Prod.snd ++ nf.map Prod.snd,
            dict_ord.getD MIN_VALID ≤ v ∧ v < (init_dict e trees dict_ord).2) ∧
      (((allIds e).Nodup ∧ ∀ v ∈ allIds e, v < dict_ord.getD MIN_VALID) →
        ((allIds (init_dict e trees dict_ord).1).Nodup ∧
          ∀ v ∈ allIds (init_dict e trees dict_ord).1, v < (init_dict e trees dict_ord).2)) := by
  have h := DictStep_fold_trees trees (e, dict_ord.getD MIN_VALID)
  obtain ⟨hle, hml, ⟨nl, nf, hl, hf, hr⟩, hinv⟩ := h
  refine ⟨hle, ?_, ?_, ⟨nl, nf, hl, hf, hr⟩, hinv⟩
  · intro k v hv
    rw [show (init_dict e trees dict_ord).1.dict_t_lemma = e.dict_t_lemma ++ nl from hl]
    exact lookup_append_of_some _ _ _ _ hv
  · intro k v hv
    rw [show (init_dict e trees dict_ord).1.dict_formeme = e.dict_formeme ++ nf from hf]
    exact lookup_append_of_some _ _ _ _ hv

/-- C7 witness: on a fresh extractor, registering one tree preserves the
pre-seeded unknown entry and keeps all ids distinct. -/
theorem init_dict_monotone_fresh_witness :
    (init_dict (mkExtract 25) [TreeData.mk [("a", "r")]] none).1.dict_t_lemma.lookup
        "UNK_T_LEMMA" = some 1 ∧
      (allIds (init_dict (mkExtract 25) [TreeData.mk [("a", "r")]] none).1).Nodup :=
  ⟨(init_dict_monotone_fresh (mkExtract 25) [TreeData.mk [("a", "r")]] none).2.1
      "UNK_T_LEMMA" 1 (by decide),
    ((init_dict_monotone_fresh (mkExtract 25) [TreeData.mk [("a", "r")]] none).2.2.2.2
      ⟨by decide, by decide⟩).1⟩

/-! Training initialization (_init_training): subsampling and the reserved
empty training instance. Reading trees and DAs from files and fitting the
vectorizers are external; the claims concern the data assembly. -/

/-- Python 2 round: round half away from zero, as an integer. -/
def pyRound (q : ℚ) : ℤ :=
  if q < 0 then -(Int.floor (-q + 1 / 2)) else Int.floor (q + 1 / 2)

/-- Python list slicing l[:k]: a nonnegative k takes the first k elements
(all of them when k exceeds the length); a negative k counts from the end,
dropping the last -k elements. -/
def pySliceTo {α : Type} (l : List α) (k : ℤ) : List α :=
  if k < 0 then l.take (l.length - (-k).toNat) else l.take k.toNat

/-- The reserved empty dialogue act: DialogueAct().parse of inform() yields a
single DAI with act type inform and no slot or value. -/
def empty_da : DialogueAct := ⟨[("inform", "", "")]⟩

/-- The data-assembly part of _init_training: keep the first
int(round(data_portion * len(trees))) trees and DAs, then append the reserved
empty tree and the empty DA exactly once. -/
def init_training_data (das : List DialogueAct) (trees : List TreeData)
    (data_portion : ℚ) : List TreeData × List DialogueAct :=
  let train_size := pyRound (data_portion * trees.length)
  let train_trees := pySliceTo trees train_size
  let train_das := pySliceTo das train_size
  (train_trees ++ [TreeData.mk []], train_das ++ [empty_da])

lemma pySliceTo_self {α : Type} (l : List α) : pySliceTo l (l.length : ℤ) = l := by
  unfold pySliceTo
  rw [if_neg (by omega)]
  simp

lemma pyRound_one_mul (n : ℕ) : pyRound (1 * (n : ℚ)) = (n : ℤ) := by
  unfold pyRound
  rw [one_mul, if_neg (not_lt.mpr (by positivity))]
  rw [show ((n : ℚ) + 1 / 2) = (1 / 2 + (n : ℚ)) from by ring]
  rw [Int.floor_add_nat]
  norm_num

/-- C8: _init_training appends the reserved empty-tree/empty-DA instance
exactly once, at the end, after the training data has been cut to the
int(round(data_portion * N))-sized prefix, for every data_portion; with
data_portion = 1 the result is exactly the input data plus the one reserved
instance. -/
theorem init_training_appends_empty_instance (das : List DialogueAct)
    (trees : List TreeData) (data_portion : ℚ) :
    (init_training_data das trees data_portion).1.length
        = (pySliceTo trees (pyRound (data_portion * trees.length))).length + 1 ∧
      (init_training_data das trees data_portion).1.dropLast
        = pySliceTo trees (pyRound (data_portion * trees.length)) ∧
      (init_training_data das trees data_portion).2.dropLast
        = pySliceTo das (pyRound (data_portion * trees.length)) ∧
      (init_training_data das trees data_portion).1.getLast? = some (TreeData.mk []) ∧
      (init_training_data das trees data_portion).2.getLast? = some empty_da ∧
      (data_portion = 1 → das.length = trees.length →
        (init_training_data das trees data_portion).1 = trees ++ [TreeData.mk []] ∧
          (init_training_data das trees data_portion).2 = das ++ [empty_da]) := by
  have hrw : init_training_data das trees data_portion
      = (pySliceTo trees (pyRound (data_portion * trees.length)) ++ [TreeData.mk []],
          pySliceTo das (pyRound (data_portion * trees.length)) ++ [empty_da]) := rfl
  rw [hrw]
  refine ⟨by simp, by simp, by simp, by simp, by simp, ?_⟩
  intro hp hlen
  subst hp
  rw [pyRound_one_mul trees.length]
  constructor
  · rw [pySliceTo_self trees]
  · rw [← hlen, pySliceTo_self das]

/-- C8 witness: one tree, one DA, data_portion = 1. -/
theorem init_training_appends_empty_instance_witness :
    init_training_data [daEmpty] [TreeData.mk [("a", "r")]] 1
      = ([TreeData.mk [("a", "r")], TreeData.mk []], [daEmpty, empty_da]) := by
  have h := (init_training_appends_empty_instance [daEmpty]
    [TreeData.mk [("a", "r")]] 1).2.2.2.2.2 rfl rfl
  exact Prod.ext_iff.mpr ⟨h.1, h.2⟩
